import Mathlib

/-!
# Team, printColl and the teamsort driver

A shallow embedding of `modern_cpp_advanced/team.hpp`, of `printColl` from
`modern_cpp_advanced/team_test.cpp` and of the aggregation, printing and sorting
steps of `modern_cpp_advanced/teamsort.cpp`.

Conventions of the embedding:

* `std::vector<X>` and `std::initializer_list<X>` are `List X`;
* `std::string` is `String`, `std::string::empty()` is `size() == 0`;
* an output stream is the text written to it so far, so `os << x` appends the
  text of `x`; how a value of the element type `T` is written (`os << value`)
  is a parameter `fmt : T → String`;
* a failing `assert` and a call that resolves to a deleted overload are `none`.
* the arithmetic of `double` is a parameter of the aggregator; where a concrete
  double is needed, a double whose value is an integer is written as that integer.
-/

namespace TeamSpec

/-! ## team.hpp -/

/-- The class `Team<T>`: its two data members. -/
structure Team (T : Type) where
  names_ : List String
  values_ : List T
deriving DecidableEq, Repr

/-- The member `std::string::empty()`. -/
def strEmpty (s : String) : Bool := s.length == 0

/-- The condition of the `assert` in the constructor of `Team`:
`names.size() > 1 || (names.size() == 1 && !names.begin()->empty())`. -/
def ctorAssert (names : List String) : Bool :=
  decide (names.length > 1) ||
    (names.length == 1 && !(match names with
      | [] => true
      | first :: _ => strEmpty first))

/-- The constructor `Team(const std::initializer_list<std::string>& names)`:
`names_` is initialised from `names`, `values_` is default-initialised (empty)
and the assertion decides whether construction goes through. -/
def Team.new {T : Type} (names : List String) : Option (Team T) :=
  if ctorAssert names then some { names_ := names, values_ := [] } else none

/-- The overload `insert(const std::initializer_list<T>& values)`:
`values_.insert(values_.end(), values)`. -/
def Team.insert {T : Type} (t : Team T) (values : List T) : Team T :=
  { t with values_ := t.values_ ++ values }

/-- The variadic overload `insert(Args... values)` together with the deleted
`insert()`: the arguments (already converted to `T` by the `static_cast`) are
appended as one batch; the call with no argument selects the deleted overload. -/
def Team.insertArgs {T : Type} (t : Team T) (args : List T) : Option (Team T) :=
  match args with
  | [] => none
  | a :: rest => some { t with values_ := t.values_ ++ (a :: rest) }

/-- The getter `getValues()`. -/
def Team.getValues {T : Type} (t : Team T) : List T := t.values_

/-- A call of `insert` as it can be written at a call site: with one
brace-enclosed list (`t.insert({42, 7})`, which only the initializer-list
overload accepts) or with a comma-separated argument list (`t.insert(42, 7)`). -/
inductive InsertCall (T : Type) where
  | braceList (values : List T)
  | variadic (args : List T)
deriving DecidableEq, Repr

/-- The values a call carries. -/
def InsertCall.batch {T : Type} : InsertCall T → List T
  | .braceList values => values
  | .variadic args => args

/-- Run one call of `insert` on a team. -/
def Team.call {T : Type} (t : Team T) : InsertCall T → Option (Team T)
  | .braceList values => some (t.insert values)
  | .variadic args => t.insertArgs args

/-- A call is accepted when it resolves to a usable overload. -/
def InsertCall.accepted {T : Type} (c : InsertCall T) : Bool :=
  match c with
  | .braceList _ => true
  | .variadic [] => false
  | .variadic (_ :: _) => true

/-- Run a sequence of calls of `insert`, in order; a rejected call stops the run. -/
def Team.calls {T : Type} (t : Team T) : List (InsertCall T) → Option (Team T)
  | [] => some t
  | c :: cs => (t.call c).bind (fun t1 => t1.calls cs)

/-- The loop `for (const auto& name : team.names_) os << name << ' ';`. -/
def writeNames (os : String) : List String → String
  | [] => os
  | name :: rest => writeNames (os ++ name ++ " ") rest

/-- The loop `for (const auto& value : team.values_) os << value << ' ';`. -/
def writeValues {T : Type} (fmt : T → String) (os : String) : List T → String
  | [] => os
  | value :: rest => writeValues fmt (os ++ fmt value ++ " ") rest

/-- The friend `operator<<(std::ostream& os, const Team& team)`. -/
def Team.write {T : Type} (fmt : T → String) (os : String) (team : Team T) : String :=
  let os1 := os ++ "[ "
  let os2 := writeNames os1 team.names_
  let os3 := os2 ++ ": "
  let os4 := writeValues fmt os3 team.values_
  os4 ++ "]"

/-- The rendering of a team: what `os << team` writes to an empty stream. -/
def Team.render {T : Type} (fmt : T → String) (team : Team T) : String :=
  team.write fmt ""

/-! ## team_test.cpp: printColl -/

/-- The loop of `printColl`:
`for (auto pos = coll.begin(); pos != coll.end() && idx < 2; ++pos)` with the
body `std::cout << ' ' << *pos << '\n'; ++idx;`. The list is the range from
`pos` to `coll.end()`. -/
def printCollLoop {T : Type} (fmt : T → String) (os : String) (idx : Nat) : List T → String
  | [] => os
  | elem :: rest =>
    if idx < 2 then printCollLoop fmt (os ++ " " ++ fmt elem ++ "\n") (idx + 1) rest
    else os

/-- The function template `printColl(const T& coll)`, writing to `os`. -/
def printColl {T : Type} (fmt : T → String) (os : String) (coll : List T) : String :=
  let os1 := os ++ "coll:\n"
  let os2 := printCollLoop fmt os1 0 coll
  let os3 := if coll.length ≥ 4 then os2 ++ " ...\n" else os2
  if coll.length > 2 then
    match coll.getLast? with
    | some back => os3 ++ " " ++ fmt back ++ "\n"
    | none => os3
  else os3

/-- One output line of `printColl` for an element: a space, the element, a newline. -/
def elemLine {T : Type} (fmt : T → String) (elem : T) : String :=
  " " ++ fmt elem ++ "\n"

/-- The text made of the given pieces, one after the other. -/
def concatAll : List String → String
  | [] => ""
  | l :: ls => l ++ concatAll ls

/-! ## teamsort.cpp: the aggregator -/

/-- The body of the `processSum` lambda: `double totalSum = 0;` followed by the
two nested range-for loops with `totalSum += value`. The type `double`, its zero
and its addition belong to the language, not to the repository: they are the
parameters `D`, `zero` and `add`. Double addition rounds, so nothing is assumed
of `add`. -/
def processSum {D : Type} (add : D → D → D) (zero : D) (coll : List (Team D)) : D :=
  coll.foldl
    (fun totalSum team => team.getValues.foldl (fun acc value => add acc value) totalSum)
    zero

/-- How many low bits an integer of magnitude `m` has beyond the 53 bits of a
double's significand (`fuel` bounds the search; a double has at most 1024 bits). -/
def excessBits : Nat → Nat → Nat
  | 0, _ => 0
  | fuel + 1, m => if m < 2 ^ 53 then 0 else excessBits fuel (m / 2) + 1

/-- The double nearest to an integer, as an integer: the 53 leading bits are
kept, the rest is rounded to nearest, a tie going to the even significand (the
default rounding of IEEE 754 binary64). Holds for magnitudes below `2 ^ 1024`. -/
def roundToDouble (n : Int) : Int :=
  let m := n.natAbs
  let e := excessBits 1100 m
  if e = 0 then n
  else
    let q := m / 2 ^ e
    let r := m % 2 ^ e
    let half := 2 ^ (e - 1)
    let q1 := if half < r ∨ (r = half ∧ q % 2 = 1) then q + 1 else q
    Int.sign n * ((q1 * 2 ^ e : Nat) : Int)

/-- The addition of two doubles whose values are integers, on those integers:
the exact sum, rounded to the nearest double. -/
def addDouble (a b : Int) : Int := roundToDouble (a + b)

/-- Two teams of doubles: one holding `1e16`, one holding `1` and `1`. -/
def roundingColl : List (Team Int) :=
  [⟨["name0"], [10000000000000000]⟩, ⟨["name1"], [1, 1]⟩]

/-! ## teamsort.cpp: the sort after the join -/

/-- The comparison lambda passed to `std::sort`:
`t1.getValues().size() < t2.getValues().size()`. -/
def sortComp {T : Type} (t1 t2 : Team T) : Bool :=
  decide (t1.getValues.length < t2.getValues.length)

/-- The library call `std::sort(first, last, comp)`. Its implementation is the
standard library's; the C++ standard fixes only its outcome: the range afterwards
holds the same elements and is sorted with respect to `comp`, that is
`comp(*(i + n), *i) == false` for a later element `*(i + n)` and an earlier `*i`.
Nothing is promised about the relative order of equivalent elements.
An outcome of the call is any list meeting that contract. -/
def StdSortOutcome {α : Type} (comp : α → α → Bool) (input out : List α) : Prop :=
  out.Perm input ∧ out.Pairwise (fun earlier later => comp later earlier = false)

instance {α : Type} [DecidableEq α] (comp : α → α → Bool) (input out : List α) :
    Decidable (StdSortOutcome comp input out) := by
  unfold StdSortOutcome
  infer_instance

/-- The requirement `std::sort` puts on `comp`: a strict weak ordering. -/
def StrictWeakOrdering {α : Type} (comp : α → α → Bool) : Prop :=
  (∀ a, comp a a = false) ∧
  (∀ a b c, comp a b = true → comp b c = true → comp a c = true) ∧
  (∀ a b c, comp a b = false → comp b a = false → comp b c = false → comp c b = false →
    comp a c = false ∧ comp c a = false)

/-- The sort step of `main`: `std::sort(coll.begin(), coll.end(), comp)` with the
comparison by number of values. -/
def SortStep {T : Type} (coll out : List (Team T)) : Prop :=
  StdSortOutcome sortComp coll out

/-- The number of values of a team, the sort key. -/
def valueCount {T : Type} (t : Team T) : Nat := t.getValues.length

/-- An arrangement keeps ties in their original order: for every key value, the
elements with that key come in the same order in `out` as in `input`. -/
def KeepsTieOrder {α : Type} (key : α → Nat) (input out : List α) : Prop :=
  ∀ k, out.filter (fun a => key a == k) = input.filter (fun a => key a == k)

/-- Four teams holding 4, 1, 2 and 1 values, in this order. -/
def tieColl : List (Team ℚ) :=
  [⟨["A"], [1, 2, 3, 4]⟩, ⟨["B"], [5]⟩, ⟨["C"], [6, 7]⟩, ⟨["D"], [8]⟩]

/-- The same four teams by ascending number of values, the two teams with one
value in the opposite order. -/
def tieOut : List (Team ℚ) :=
  [⟨["D"], [8]⟩, ⟨["B"], [5]⟩, ⟨["C"], [6, 7]⟩, ⟨["A"], [1, 2, 3, 4]⟩]

/-- The four teams of `tieColl` by ascending number of values, the two teams
with one value in their original order. -/
def tieSorted : List (Team ℚ) :=
  [⟨["B"], [5]⟩, ⟨["D"], [8]⟩, ⟨["C"], [6, 7]⟩, ⟨["A"], [1, 2, 3, 4]⟩]

/-- The function `createTeamDouble()` at the value `id` of its static counter:
`Team<double> t{"name"+std::to_string(id)}; t.insert(-id);`. -/
def createTeamDouble (id : Nat) : Team ℚ :=
  Team.insert ⟨["name" ++ toString id], []⟩ [-(id : ℚ)]

/-- Seventeen teams as the loop of `main` creates them: `name0` to `name16`,
one value each. -/
def seventeenTeams : List (Team ℚ) :=
  [0, 1, 2, 3, 4, 5, 6, 7, 8, 9, 10, 11, 12, 13, 14, 15, 16].map createTeamDouble

/-- The arrangement of `seventeenTeams` after `std::sort` (GNU libstdc++). The
range is longer than 16, so one partition step runs: all comparisons being
false, the median-of-three step exchanges positions 0 and 8, and the unguarded
partition exchanges positions 1, 2, ..., 8 with 16, 15, ..., 9; the final
insertion sort moves nothing. -/
def seventeenSorted : List (Team ℚ) :=
  [8, 16, 15, 14, 13, 12, 11, 10, 9, 0, 7, 6, 5, 4, 3, 2, 1].map createTeamDouble

/-! ## teamsort.cpp: the two printers and the aggregator running concurrently -/

/-- The threads started by `main` with `std::async(std::launch::async, ...)`. -/
inductive Tid where
  | print1
  | print2
  | processSum
deriving DecidableEq, Repr

/-- Where a thread running `printAllTeams` stands: at the head of the loop
before element number `i` (the `lock_guard` of the previous iteration is
destroyed), or inside iteration `i`, holding the mutex, with `rest` the
characters of the statement `std::cout << "  " << elem << '\n'` still to write. -/
inductive Printer where
  | atLoop (i : Nat)
  | writing (i : Nat) (rest : List Char)
deriving DecidableEq, Repr

/-- The characters written by one iteration of `printAllTeams`:
`std::cout << "  " << elem << '\n'`. -/
def lineChars {T : Type} (fmt : T → String) (elem : Team T) : List Char :=
  ((elem.write fmt ("" ++ "  ")) ++ "\n").data

/-- The state of the concurrent phase: the two printers, the owner of
`coutMutex` if it is locked, the characters of the notice the aggregator still
has to write, and the sink: every character written so far with its writer. -/
structure Sys where
  print1 : Printer
  print2 : Printer
  coutMutex : Option Tid
  notice : List Char
  sink : List (Tid × Char)
deriving DecidableEq, Repr

/-- The state when the three threads have been started. -/
def Sys.init : Sys :=
  { print1 := .atLoop 0, print2 := .atLoop 0, coutMutex := none,
    notice := "processSum() done\n".data, sink := [] }

/-- One atomic action of the thread `me` running `printAllTeams` over `coll`:
at the loop head it leaves the loop when no element is left, and otherwise
constructs the `lock_guard`, which succeeds only when the mutex is free (a
blocked thread does not move); inside an iteration it writes the next character
to the sink; when the statement is written, the `lock_guard` is destroyed, the
mutex is released and the loop advances. The result is the new state of the
thread, the new owner of the mutex and what was written. -/
def printAllTeamsStep {T : Type} (fmt : T → String) (coll : List (Team T)) (me : Tid)
    (p : Printer) (mutex : Option Tid) : Printer × Option Tid × List (Tid × Char) :=
  match p with
  | .atLoop i =>
    match coll.get? i with
    | none => (p, mutex, [])
    | some elem =>
      match mutex with
      | none => (.writing i (lineChars fmt elem), some me, [])
      | some _ => (p, mutex, [])
  | .writing i (c :: rest) => (.writing i rest, mutex, [(me, c)])
  | .writing i [] => (.atLoop (i + 1), none, [])

/-- One atomic action of the thread chosen by the scheduler. The aggregator
writes its notice character by character without taking the mutex. -/
def Sys.step {T : Type} (fmt : T → String) (coll : List (Team T)) (s : Sys) (tid : Tid) : Sys :=
  match tid with
  | .print1 =>
    let r := printAllTeamsStep fmt coll .print1 s.print1 s.coutMutex
    { s with print1 := r.1, coutMutex := r.2.1, sink := s.sink ++ r.2.2 }
  | .print2 =>
    let r := printAllTeamsStep fmt coll .print2 s.print2 s.coutMutex
    { s with print2 := r.1, coutMutex := r.2.1, sink := s.sink ++ r.2.2 }
  | .processSum =>
    match s.notice with
    | [] => s
    | c :: rest => { s with notice := rest, sink := s.sink ++ [(.processSum, c)] }

/-- Run the concurrent phase under a schedule: the list of the threads chosen
to move, in order. Every interleaving of the threads is such a schedule. -/
def Sys.run {T : Type} (fmt : T → String) (coll : List (Team T)) (s : Sys) : List Tid → Sys
  | [] => s
  | tid :: schedule => (s.step fmt coll tid).run fmt coll schedule

/-- The text the two printers have written to the sink. -/
def Sys.printed (s : Sys) : List Char :=
  (s.sink.filter (fun w => w.1 != Tid.processSum)).map (fun w => w.2)

/-- Number of iterations of its loop a printer has completed. -/
def Printer.done : Printer → Nat
  | .atLoop i => i
  | .writing i _ => i

/-- A printer has left its loop over a collection of `n` elements. -/
def Printer.finished (n : Nat) : Printer → Bool
  | .atLoop i => decide (n ≤ i)
  | .writing _ _ => false

/-- One complete line of a printer: two spaces, the rendering of a team, a newline. -/
def fullLine {T : Type} (fmt : T → String) (t : Team T) : List Char :=
  ("  " ++ t.render fmt ++ "\n").data

/-- The characters of a sequence of complete lines. -/
def linesText {T : Type} (fmt : T → String) : List (Team T) → List Char
  | [] => []
  | t :: ts => fullLine fmt t ++ linesText fmt ts

/-- A printer stands at the head of its loop (it is in no iteration). -/
def Printer.isAtLoop : Printer → Bool
  | .atLoop _ => true
  | .writing _ _ => false

/-- A printer is inside an iteration over an element of the collection and
`cur` is what it has written of that element's line so far. -/
def Writes {T : Type} (fmt : T → String) (coll : List (Team T)) (p : Printer)
    (cur : List Char) : Prop :=
  match p with
  | .atLoop _ => False
  | .writing i rest => ∃ t, coll.get? i = some t ∧ cur ++ rest = lineChars fmt t

/-- The mutex discipline of the two printers `p` (thread `me`) and `q` (thread
`other`): either the mutex is free, both stand at the loop head and no line is
under way, or one of them owns the mutex and is writing the line under way
while the second stands at the loop head. -/
def Guarded {T : Type} (fmt : T → String) (coll : List (Team T)) (me other : Tid)
    (p q : Printer) (mutex : Option Tid) (cur : List Char) : Prop :=
  (mutex = none ∧ p.isAtLoop = true ∧ q.isAtLoop = true ∧ cur = []) ∨
  (mutex = some me ∧ Writes fmt coll p cur ∧ q.isAtLoop = true) ∨
  (mutex = some other ∧ Writes fmt coll q cur ∧ p.isAtLoop = true)

/-- The invariant of the concurrent phase: the text of the printers is a
sequence of complete lines, those of the completed iterations, followed by the
line under way, and the mutex discipline holds. -/
def Sys.Inv {T : Type} (fmt : T → String) (coll : List (Team T)) (s : Sys) : Prop :=
  ∃ lines cur,
    s.printed = linesText fmt lines ++ cur ∧
    lines.Perm (coll.take s.print1.done ++ coll.take s.print2.done) ∧
    Guarded fmt coll .print1 .print2 s.print1 s.print2 s.coutMutex cur

/-- A collection of one team without values. -/
def demoColl : List (Team String) := [⟨["a"], []⟩]

/-- A schedule for `demoColl`: the first printer takes the mutex and writes four
characters, the aggregator writes three characters of its notice, the second
printer tries to take the mutex, the first printer ends its line and its loop,
then the second printer runs, then the aggregator ends its notice. -/
def demoSchedule : List Tid :=
  List.replicate 5 .print1 ++ List.replicate 3 .processSum ++ [.print2] ++
    List.replicate 7 .print1 ++ List.replicate 12 .print2 ++ List.replicate 15 .processSum

/-! ## Theorems: construction, insertion and the names -/

theorem strEmpty_iff (s : String) : strEmpty s = true ↔ s = "" := by
  unfold strEmpty
  constructor
  · intro h
    have h0 : s.length = 0 := by simpa using h
    exact String.ext (List.length_eq_zero.mp h0)
  · rintro rfl
    rfl

theorem ctorAssert_eq_false_iff (names : List String) :
    ctorAssert names = false ↔ names = [] ∨ names = [""] := by
  cases names with
  | nil => simp [ctorAssert]
  | cons first rest =>
    cases rest with
    | nil =>
      by_cases h : strEmpty first = true
      · have hs := (strEmpty_iff first).mp h
        subst hs
        simp [ctorAssert, h]
      · have hs : first ≠ "" := fun e => h ((strEmpty_iff first).mpr e)
        simp [ctorAssert, h, hs]
    | cons second more => simp [ctorAssert]

theorem new_eq_some_iff {T : Type} (names : List String) (t : Team T) :
    Team.new names = some t ↔ ctorAssert names = true ∧ t = ⟨names, []⟩ := by
  unfold Team.new
  by_cases h : ctorAssert names = true
  · simp [h, eq_comm]
  · simp [h]

theorem call_names {T : Type} (t t1 : Team T) (c : InsertCall T) (h : t.call c = some t1) :
    t1.names_ = t.names_ ∧ t1.values_ = t.values_ ++ c.batch := by
  cases c with
  | braceList values =>
    simp only [Team.call, Option.some.injEq] at h
    subst h
    exact ⟨rfl, rfl⟩
  | variadic args =>
    cases args with
    | nil => simp [Team.call, Team.insertArgs] at h
    | cons a rest =>
      simp only [Team.call, Team.insertArgs, Option.some.injEq] at h
      subst h
      exact ⟨rfl, rfl⟩

theorem call_accepted {T : Type} (t : Team T) (c : InsertCall T) (h : c.accepted = true) :
    ∃ t1, t.call c = some t1 := by
  cases c with
  | braceList values => exact ⟨_, rfl⟩
  | variadic args =>
    cases args with
    | nil => simp [InsertCall.accepted] at h
    | cons a rest => exact ⟨_, rfl⟩

theorem calls_result {T : Type} (cs : List (InsertCall T)) (t t1 : Team T)
    (h : t.calls cs = some t1) :
    t1.names_ = t.names_ ∧ t1.values_ = t.values_ ++ (cs.map InsertCall.batch).flatten := by
  induction cs generalizing t with
  | nil =>
    simp only [Team.calls, Option.some.injEq] at h
    subst h
    simp
  | cons c cs ih =>
    simp only [Team.calls] at h
    cases hc : t.call c with
    | none => simp [hc] at h
    | some t2 =>
      simp only [hc, Option.some_bind] at h
      obtain ⟨hn, hv⟩ := call_names t t2 c hc
      obtain ⟨hn1, hv1⟩ := ih t2 h
      refine ⟨hn1.trans hn, ?_⟩
      rw [hv1, hv]
      simp

theorem calls_accepted {T : Type} (cs : List (InsertCall T)) (t : Team T)
    (h : ∀ c ∈ cs, c.accepted = true) : ∃ t1, t.calls cs = some t1 := by
  induction cs generalizing t with
  | nil => exact ⟨t, rfl⟩
  | cons c cs ih =>
    obtain ⟨t2, hc⟩ := call_accepted t c (h c (List.mem_cons_self _ _))
    obtain ⟨t1, h1⟩ := ih t2 (fun d hd => h d (List.mem_cons_of_mem _ hd))
    exact ⟨t1, by simp [Team.calls, hc, h1]⟩

/-- C1: construction is decided by the name list alone. It fails exactly when the
list is empty or is the single empty string; it succeeds, keeping the names and
starting with no values, for one non-empty name and for any two or more names. -/
theorem construction_fails_iff {T : Type} (names : List String) :
    ((Team.new names : Option (Team T)) = none ↔ names = [] ∨ names = [""]) ∧
    (∀ n, names = [n] → n ≠ "" → (Team.new names : Option (Team T)) = some ⟨names, []⟩) ∧
    (2 ≤ names.length → (Team.new names : Option (Team T)) = some ⟨names, []⟩) := by
  have key : (Team.new names : Option (Team T)) = none ↔ names = [] ∨ names = [""] := by
    rw [← ctorAssert_eq_false_iff]
    unfold Team.new
    by_cases h : ctorAssert names = true <;> simp [h]
  have ok : ¬ (names = [] ∨ names = [""]) →
      (Team.new names : Option (Team T)) = some ⟨names, []⟩ := by
    intro hne
    have hc : ctorAssert names = true := by
      rw [← ctorAssert_eq_false_iff] at hne
      simpa using hne
    simp [Team.new, hc]
  refine ⟨key, ?_, ?_⟩
  · intro n hn hne
    apply ok
    subst hn
    simp [hne]
  · intro h2
    apply ok
    rintro (h | h) <;> subst h <;> simp at h2

theorem construction_fails_iff_witness :
    (Team.new ["unknown"] : Option (Team ℚ)) = some ⟨["unknown"], []⟩ ∧
    (Team.new ["", ""] : Option (Team ℚ)) = some ⟨["", ""], []⟩ ∧
    (Team.new [""] : Option (Team ℚ)) = none ∧
    (Team.new [] : Option (Team ℚ)) = none :=
  ⟨(construction_fails_iff ["unknown"]).2.1 "unknown" rfl (by decide),
   (construction_fails_iff ["", ""]).2.2 (by decide),
   (construction_fails_iff [""]).1.mpr (Or.inr rfl),
   (construction_fails_iff []).1.mpr (Or.inl rfl)⟩

/-- C2: after a successful construction and any sequence of accepted insert
calls, the run succeeds and getValues() is the concatenation of the batches in
call order, each batch in argument order; its length is the sum of the batch
sizes; the freshly constructed team has no values. -/
theorem getValues_after_inserts {T : Type} (names : List String) (t : Team T)
    (cs : List (InsertCall T)) (hnew : Team.new names = some t)
    (hacc : ∀ c ∈ cs, c.accepted = true) :
    t.getValues = [] ∧
    ∃ t1, t.calls cs = some t1 ∧
      t1.getValues = (cs.map InsertCall.batch).flatten ∧
      t1.getValues.length = (cs.map (fun c => c.batch.length)).sum := by
  obtain ⟨_, ht⟩ := (new_eq_some_iff names t).mp hnew
  obtain ⟨t1, h1⟩ := calls_accepted cs t hacc
  obtain ⟨_, hv⟩ := calls_result cs t t1 h1
  have hv1 : t1.getValues = (cs.map InsertCall.batch).flatten := by
    rw [Team.getValues, hv, ht]
    simp
  refine ⟨by rw [ht]; rfl, t1, h1, hv1, ?_⟩
  rw [hv1, List.length_flatten, List.map_map]
  rfl

theorem getValues_after_inserts_witness :
    ∃ t1 : Team ℚ,
      (⟨["Jim", "Gianna", "Andrea"], []⟩ : Team ℚ).calls
        [.variadic [42, 7, 5.5], .variadic [42.7]] = some t1 ∧
      t1.getValues = [42, 7, 5.5, 42.7] ∧ t1.getValues.length = 4 := by
  have h := (getValues_after_inserts ["Jim", "Gianna", "Andrea"]
    (⟨["Jim", "Gianna", "Andrea"], []⟩ : Team ℚ)
    [.variadic [42, 7, 5.5], .variadic [42.7]] rfl
    (by intro c hc; simp at hc; rcases hc with rfl | rfl <;> rfl)).2
  simpa [InsertCall.batch] using h

/-- C8: a team reached from a successful construction by any sequence of insert
calls has the names given at construction, in the same order; it has at least
one name, and a single name is non-empty. Each insert call leaves the names as
they are and only appends its batch to the values. -/
theorem names_fixed_by_inserts {T : Type} (names : List String) (t t1 : Team T)
    (cs : List (InsertCall T)) (hnew : Team.new names = some t)
    (hrun : t.calls cs = some t1) :
    t1.names_ = names ∧ 1 ≤ t1.names_.length ∧
    (∀ n, t1.names_ = [n] → n ≠ "") ∧
    (∀ (u u1 : Team T) (c : InsertCall T), u.call c = some u1 →
      u1.names_ = u.names_ ∧ u1.values_ = u.values_ ++ c.batch) := by
  obtain ⟨hc, ht⟩ := (new_eq_some_iff names t).mp hnew
  obtain ⟨hn, _⟩ := calls_result cs t t1 hrun
  have hnames : t1.names_ = names := by rw [hn, ht]
  have hbad : ¬ (names = [] ∨ names = [""]) := by
    rw [← ctorAssert_eq_false_iff]
    simp [hc]
  refine ⟨hnames, ?_, ?_, fun u u1 c h => call_names u u1 c h⟩
  · rw [hnames]
    cases names with
    | nil => exact absurd (Or.inl rfl) hbad
    | cons a l => simp
  · intro n h1 hne
    apply hbad
    right
    rw [← hnames, h1, hne]

theorem names_fixed_by_inserts_witness :
    (⟨["Nicola"], [42]⟩ : Team ℚ).names_ = ["Nicola"] ∧
    1 ≤ (⟨["Nicola"], [42]⟩ : Team ℚ).names_.length := by
  have h := names_fixed_by_inserts ["Nicola"] (⟨["Nicola"], []⟩ : Team ℚ) ⟨["Nicola"], [42]⟩
    [.variadic [42]] rfl rfl
  exact ⟨h.1, h.2.1⟩

/-! ## Theorems: rendering -/

theorem writeNames_eq (names : List String) (os : String) :
    writeNames os names = os ++ concatAll (names.map (fun n => n ++ " ")) := by
  induction names generalizing os with
  | nil => simp [writeNames, concatAll]
  | cons n rest ih =>
    simp only [writeNames, List.map_cons, concatAll]
    rw [ih]
    simp [String.append_assoc]

theorem writeValues_eq {T : Type} (fmt : T → String) (values : List T) (os : String) :
    writeValues fmt os values = os ++ concatAll (values.map (fun v => fmt v ++ " ")) := by
  induction values generalizing os with
  | nil => simp [writeValues, concatAll]
  | cons v rest ih =>
    simp only [writeValues, List.map_cons, concatAll]
    rw [ih]
    simp [String.append_assoc]

theorem write_eq {T : Type} (fmt : T → String) (t : Team T) (os : String) :
    t.write fmt os = os ++ ("[ " ++ concatAll (t.names_.map (fun n => n ++ " ")) ++ ": " ++
      concatAll (t.values_.map (fun v => fmt v ++ " ")) ++ "]") := by
  simp only [Team.write, writeNames_eq, writeValues_eq, String.append_assoc]

theorem write_eq_append_render {T : Type} (fmt : T → String) (t : Team T) (os : String) :
    t.write fmt os = os ++ t.render fmt := by
  rw [Team.render, write_eq, write_eq, String.empty_append]

/-- C3: the rendering of a team is exactly the text "[ ", each name followed by a
space, ": ", the text of each value followed by a space, and "]"; written to a
stream it is appended to what the stream holds. Two runs of insert calls from the
same team that carry the same values overall give the same rendering, however the
values are split into calls, and a team without values renders as its names
followed by ": ]". -/
theorem render_exact {T : Type} (fmt : T → String) (t : Team T) :
    t.render fmt = "[ " ++ concatAll (t.names_.map (fun n => n ++ " ")) ++ ": " ++
      concatAll (t.getValues.map (fun v => fmt v ++ " ")) ++ "]" ∧
    (∀ os, t.write fmt os = os ++ t.render fmt) ∧
    (∀ (cs1 cs2 : List (InsertCall T)) (t1 t2 : Team T),
      t.calls cs1 = some t1 → t.calls cs2 = some t2 →
      (cs1.map InsertCall.batch).flatten = (cs2.map InsertCall.batch).flatten →
      t1.render fmt = t2.render fmt) ∧
    (t.getValues = [] →
      t.render fmt = "[ " ++ concatAll (t.names_.map (fun n => n ++ " ")) ++ ": ]") := by
  have h1 : t.render fmt = "[ " ++ concatAll (t.names_.map (fun n => n ++ " ")) ++ ": " ++
      concatAll (t.getValues.map (fun v => fmt v ++ " ")) ++ "]" := by
    rw [Team.render, write_eq, String.empty_append]
    rfl
  refine ⟨h1, write_eq_append_render fmt t, ?_, ?_⟩
  · intro cs1 cs2 t1 t2 r1 r2 hb
    obtain ⟨n1, v1⟩ := calls_result cs1 t t1 r1
    obtain ⟨n2, v2⟩ := calls_result cs2 t t2 r2
    have : t1 = t2 := by
      cases t1
      cases t2
      simp only [Team.mk.injEq]
      simp only at n1 v1 n2 v2
      exact ⟨n1.trans n2.symm, by rw [v1, v2, hb]⟩
    rw [this]
  · intro he
    rw [h1, he]
    simp [concatAll, String.append_assoc]

theorem render_exact_witness :
    (⟨["Jim", "Gianna", "Andrea"], ["42", "7", "5.5"]⟩ : Team String).render id =
      "[ Jim Gianna Andrea : 42 7 5.5 ]" ∧
    (⟨["Jim", "Gianna", "Andrea"], []⟩ : Team String).render id = "[ Jim Gianna Andrea : ]" ∧
    ∃ t2, (⟨["Jim", "Gianna", "Andrea"], []⟩ : Team String).calls
        [.variadic ["42"], .variadic ["7"], .variadic ["5.5"]] = some t2 ∧
      t2.render id = "[ Jim Gianna Andrea : 42 7 5.5 ]" := by
  have h := render_exact id (⟨["Jim", "Gianna", "Andrea"], []⟩ : Team String)
  refine ⟨?_, ?_, ⟨["Jim", "Gianna", "Andrea"], ["42", "7", "5.5"]⟩, rfl, ?_⟩
  · exact (render_exact id (⟨["Jim", "Gianna", "Andrea"], ["42", "7", "5.5"]⟩ : Team String)).1
  · exact h.2.2.2 rfl
  · have e := h.2.2.1 [.variadic ["42"], .variadic ["7"], .variadic ["5.5"]]
      [.variadic ["42", "7", "5.5"]] ⟨["Jim", "Gianna", "Andrea"], ["42", "7", "5.5"]⟩
      ⟨["Jim", "Gianna", "Andrea"], ["42", "7", "5.5"]⟩ rfl rfl rfl
    exact e.trans
      (render_exact id (⟨["Jim", "Gianna", "Andrea"], ["42", "7", "5.5"]⟩ : Team String)).1

/-- C4 (the code at the input where it departs from the claim): the variadic
call without argument is rejected, but the brace-list call with an empty list is
accepted, succeeds and leaves the team, hence its values, unchanged. -/
theorem empty_braceList_accepted {T : Type} (t : Team T) :
    t.call (.variadic []) = none ∧
    (InsertCall.braceList ([] : List T)).accepted = true ∧
    (InsertCall.braceList ([] : List T)).batch = [] ∧
    t.call (.braceList []) = some t ∧
    (t.insert []).getValues = t.getValues := by
  refine ⟨rfl, rfl, rfl, ?_, ?_⟩
  · simp [Team.call, Team.insert]
  · simp [Team.insert, Team.getValues]

/-! ## Theorems: printColl -/

theorem printCollLoop_eq {T : Type} (fmt : T → String) (coll : List T) (idx : Nat)
    (os : String) :
    printCollLoop fmt os idx coll =
      os ++ concatAll ((coll.take (2 - idx)).map (elemLine fmt)) := by
  induction coll generalizing idx os with
  | nil => simp [printCollLoop, concatAll]
  | cons elem rest ih =>
    by_cases h : idx < 2
    · have h2 : 2 - idx = (2 - (idx + 1)) + 1 := by omega
      simp only [printCollLoop, h, if_true]
      rw [ih, h2, List.take_succ_cons, List.map_cons]
      simp [concatAll, elemLine, String.append_assoc]
    · have h2 : 2 - idx = 0 := by omega
      simp [printCollLoop, h, h2, concatAll]

theorem printColl_eq {T : Type} (fmt : T → String) (coll : List T) (os : String) :
    printColl fmt os coll =
      os ++ "coll:\n" ++ concatAll ((coll.take (min coll.length 2)).map (elemLine fmt)) ++
        (if coll.length > 3 then " ...\n" else "") ++
        (if h : coll.length > 2 then
          elemLine fmt (coll.getLast (List.ne_nil_of_length_pos (by omega))) else "") := by
  unfold printColl
  simp only [printCollLoop_eq]
  rcases coll with _ | ⟨a, _ | ⟨b, _ | ⟨c, rest⟩⟩⟩
  · simp [concatAll]
  · simp [concatAll]
  · simp [concatAll]
  · have h4 : (a :: b :: c :: rest).length ≥ 4 ↔ (a :: b :: c :: rest).length > 3 := by
      constructor <;> intro h <;> omega
    have h2 : (a :: b :: c :: rest).length > 2 := by simp
    have hm : min (a :: b :: c :: rest).length 2 = 2 := by simp
    rw [List.getLast?_eq_getLast _ (by simp)]
    simp only [h2, if_true, dite_true, hm, Nat.sub_zero, h4]
    split <;> simp only [elemLine, String.append_assoc, String.append_empty]

/-- C10: printColl writes the header line, then one per line the first
min(n, 2) elements in order, the dots line exactly when n > 3 and the last
element exactly when n > 2. So up to three elements are all printed once, in
order, without dots; four or more give the first two, the dots and the last;
the empty collection gives the header only. -/
theorem printColl_output {T : Type} (fmt : T → String) (coll : List T) :
    (∀ os, printColl fmt os coll =
      os ++ "coll:\n" ++ concatAll ((coll.take (min coll.length 2)).map (elemLine fmt)) ++
        (if coll.length > 3 then " ...\n" else "") ++
        (if h : coll.length > 2 then
          elemLine fmt (coll.getLast (List.ne_nil_of_length_pos (by omega))) else "")) ∧
    (coll.length ≤ 3 →
      printColl fmt "" coll = "coll:\n" ++ concatAll (coll.map (elemLine fmt))) ∧
    (∀ a b mid z, coll = a :: b :: (mid ++ [z]) → mid ≠ [] →
      printColl fmt "" coll =
        "coll:\n" ++ elemLine fmt a ++ elemLine fmt b ++ " ...\n" ++ elemLine fmt z) ∧
    (coll = [] → printColl fmt "" coll = "coll:\n") := by
  refine ⟨printColl_eq fmt coll, ?_, ?_, ?_⟩
  · intro h3
    rw [printColl_eq]
    rcases coll with _ | ⟨a, _ | ⟨b, _ | ⟨c, _ | ⟨d, rest⟩⟩⟩⟩
    · simp [concatAll]
    · simp [concatAll]
    · simp [concatAll]
    · simp only [List.length_cons, List.length_nil, Nat.reduceAdd, Nat.reduceLeDiff, min_self,
        Nat.min_eq_right, List.take_succ_cons, List.take_zero, List.map_cons, List.map_nil,
        concatAll, gt_iff_lt, lt_self_iff_false, if_false, Nat.reduceLT, dite_true,
        List.getLast_cons_cons, List.getLast_singleton, String.append_assoc,
        String.append_empty, String.empty_append]
    · simp at h3
  · intro a b mid z hc hmid
    subst hc
    rw [printColl_eq]
    have hl : (a :: b :: (mid ++ [z])).length = mid.length + 3 := by simp
    have hpos : 0 < mid.length := List.length_pos.mpr hmid
    have h3 : (a :: b :: (mid ++ [z])).length > 3 := by omega
    have h2 : (a :: b :: (mid ++ [z])).length > 2 := by omega
    have hm : min (a :: b :: (mid ++ [z])).length 2 = 2 := by omega
    have hlast : ∀ hne, (a :: b :: (mid ++ [z])).getLast hne = z := by
      intro hne
      have e : a :: b :: (mid ++ [z]) = (a :: b :: mid) ++ [z] := by simp
      simp only [e, List.getLast_append_singleton]
    simp only [h3, h2, hm, if_true, dite_true, hlast, List.take_succ_cons, List.take_zero,
      List.map_cons, List.map_nil, concatAll, String.append_assoc, String.append_empty,
      String.empty_append]
  · intro hc
    subst hc
    rw [printColl_eq]
    simp [concatAll]

theorem printColl_output_witness :
    printColl (fun n : Int => toString n) "" [1, 2, 3, 4, 5] = "coll:\n 1\n 2\n ...\n 5\n" ∧
    printColl (fun n : Int => toString n) "" [1, 2, 3] = "coll:\n 1\n 2\n 3\n" ∧
    printColl (fun n : Int => toString n) "" [] = "coll:\n" :=
  ⟨(printColl_output (fun n : Int => toString n) [1, 2, 3, 4, 5]).2.2.1 1 2 [3, 4] 5 rfl
      (by decide),
   (printColl_output (fun n : Int => toString n) [1, 2, 3]).2.1 (by decide),
   (printColl_output (fun n : Int => toString n) []).2.2.2 rfl⟩

/-! ## Theorems: the aggregator -/

theorem foldl_values_append {D : Type} (add : D → D → D) (l1 l2 : List D) (start : D) :
    (l1 ++ l2).foldl (fun acc value => add acc value) start =
      l2.foldl (fun acc value => add acc value)
        (l1.foldl (fun acc value => add acc value) start) :=
  List.foldl_append _ _ _ _

theorem processSum_loop_eq {D : Type} (add : D → D → D) (coll : List (Team D)) (start : D) :
    coll.foldl
      (fun totalSum team => team.getValues.foldl (fun acc value => add acc value) totalSum)
      start =
    (coll.map Team.getValues).flatten.foldl (fun acc value => add acc value) start := by
  induction coll generalizing start with
  | nil => rfl
  | cons t rest ih =>
    simp only [List.foldl_cons, List.map_cons, List.flatten_cons]
    rw [ih, foldl_values_append]

theorem foldl_exact {D : Type} (add : D → D → D) (zero : D)
    (hassoc : ∀ a b c, add (add a b) c = add a (add b c)) (hzero : ∀ a, add a zero = a)
    (values : List D) (start : D) :
    values.foldl (fun acc value => add acc value) start =
      add start (values.foldl (fun acc value => add acc value) zero) := by
  induction values using List.reverseRecOn generalizing start with
  | nil => simp [hzero]
  | append_singleton l a ih =>
    simp only [List.foldl_append, List.foldl_cons, List.foldl_nil]
    rw [ih, hassoc]

/-- C5, as stated, fails: for two teams of doubles holding 1e16 and 1, 1, the
loop returns 1e16 (adding 1 to 1e16 rounds back to 1e16, twice), while the sum
of every value, which is also the sum over the teams of the sum of each team, is
1e16 + 2, itself a double. -/
theorem processSum_counterexample :
    processSum addDouble 0 roundingColl = 10000000000000000 ∧
    (roundingColl.map (fun t => t.getValues.sum)).sum = 10000000000000002 ∧
    (roundingColl.map (fun t => t.getValues.foldl addDouble 0)).foldl addDouble 0 =
      10000000000000002 ∧
    roundToDouble 10000000000000002 = 10000000000000002 := by
  refine ⟨?_, ?_, ?_, ?_⟩ <;> decide

/-- C5, amended: the nested loop of the aggregator returns the running total of
every value of every team, added one at a time from 0 in collection order and,
inside a team, in value order, whatever the addition of the value type does; it
returns 0 for the empty collection and for a collection of teams without values.
Where the addition is exact (associative, with 0 neutral), this is the sum over
the teams of the sum of each team's values. -/
theorem processSum_running_total {D : Type} (add : D → D → D) (zero : D)
    (coll : List (Team D)) :
    processSum add zero coll =
      (coll.map Team.getValues).flatten.foldl (fun acc value => add acc value) zero ∧
    processSum add zero [] = zero ∧
    ((∀ t ∈ coll, t.getValues = []) → processSum add zero coll = zero) ∧
    ((∀ a b c, add (add a b) c = add a (add b c)) → (∀ a, add a zero = a) →
      processSum add zero coll =
        (coll.map (fun t => t.getValues.foldl (fun acc value => add acc value) zero)).foldl
          (fun acc s => add acc s) zero) := by
  refine ⟨processSum_loop_eq add coll zero, rfl, ?_, ?_⟩
  · intro hall
    rw [processSum, processSum_loop_eq]
    have h : (coll.map Team.getValues).flatten = [] := by
      rw [List.flatten_eq_nil_iff]
      intro l hl
      obtain ⟨t, ht, rfl⟩ := List.mem_map.mp hl
      exact hall t ht
    rw [h]
    rfl
  · intro hassoc hzero
    rw [processSum, List.foldl_map]
    congr 1
    funext total team
    exact foldl_exact add zero hassoc hzero team.getValues total

theorem processSum_running_total_witness :
    processSum (fun a b : ℚ => a + b) 0 [⟨["name0"], [0]⟩, ⟨["name1"], [-1, 42]⟩, ⟨["x"], []⟩]
      = 41 ∧
    processSum (fun a b : ℚ => a + b) 0 [⟨["x"], []⟩, ⟨["y"], []⟩] = 0 := by
  refine ⟨?_, (processSum_running_total (fun a b : ℚ => a + b) 0
    [⟨["x"], []⟩, ⟨["y"], []⟩]).2.2.1 ?_⟩
  · rw [(processSum_running_total (fun a b : ℚ => a + b) 0 _).2.2.2
      (fun a b c => add_assoc a b c) (fun a => add_zero a)]
    norm_num [Team.getValues]
  · intro t ht
    simp at ht
    rcases ht with rfl | rfl <;> rfl

/-! ## Theorems: the sort after the join -/

theorem sortComp_eq_false_iff {T : Type} (t1 t2 : Team T) :
    sortComp t1 t2 = false ↔ valueCount t2 ≤ valueCount t1 := by
  simp [sortComp, valueCount]

theorem sortComp_strictWeakOrdering {T : Type} :
    StrictWeakOrdering (sortComp : Team T → Team T → Bool) := by
  refine ⟨?_, ?_, ?_⟩
  · intro a
    simp [sortComp]
  · intro a b c hab hbc
    simp only [sortComp, decide_eq_true_eq] at *
    omega
  · intro a b c h1 h2 h3 h4
    simp only [sortComp, decide_eq_false_iff_not] at *
    constructor <;> omega

theorem sortStep_iff {T : Type} (coll out : List (Team T)) :
    SortStep coll out ↔
      out.Perm coll ∧ out.Pairwise (fun a b => valueCount a ≤ valueCount b) := by
  unfold SortStep StdSortOutcome
  constructor
  · rintro ⟨hp, hs⟩
    exact ⟨hp, hs.imp (fun h => (sortComp_eq_false_iff _ _).mp h)⟩
  · rintro ⟨hp, hs⟩
    exact ⟨hp, hs.imp (fun h => (sortComp_eq_false_iff _ _).mpr h)⟩

theorem stable_outcome_exists {T : Type} (coll : List (Team T)) :
    ∃ out, SortStep coll out ∧ KeepsTieOrder valueCount coll out := by
  let r : Team T → Team T → Prop := fun a b => valueCount a ≤ valueCount b
  haveI : DecidableRel r := fun a b => Nat.decLe _ _
  haveI : IsTotal (Team T) r := ⟨fun a b => Nat.le_total _ _⟩
  haveI : IsTrans (Team T) r := ⟨fun a b c hab hbc => Nat.le_trans hab hbc⟩
  refine ⟨coll.insertionSort r, (sortStep_iff _ _).mpr
    ⟨List.perm_insertionSort r coll, List.sorted_insertionSort r coll⟩, ?_⟩
  intro k
  have hpw : (coll.filter (fun a => valueCount a == k)).Pairwise r := by
    rw [List.pairwise_iff_forall_sublist]
    intro a b hab
    have ha : a ∈ coll.filter (fun a => valueCount a == k) := hab.subset (by simp)
    have hb : b ∈ coll.filter (fun a => valueCount a == k) := hab.subset (by simp)
    simp only [List.mem_filter, beq_iff_eq] at ha hb
    show valueCount a ≤ valueCount b
    omega
  have hsub : List.Sublist (coll.filter (fun a => valueCount a == k)) (coll.insertionSort r) :=
    List.sublist_insertionSort hpw (List.filter_sublist _)
  have hsub2 : List.Sublist (coll.filter (fun a => valueCount a == k))
      ((coll.insertionSort r).filter (fun a => valueCount a == k)) := by
    have := hsub.filter (fun a => valueCount a == k)
    simpa [List.filter_filter] using this
  have hlen : ((coll.insertionSort r).filter (fun a => valueCount a == k)).length =
      (coll.filter (fun a => valueCount a == k)).length :=
    ((List.perm_insertionSort r coll).filter _).length_eq
  exact (hsub2.eq_of_length hlen.symm).symm

theorem tieOut_sortStep : SortStep tieColl tieOut := by
  rw [sortStep_iff]
  refine ⟨?_, ?_⟩
  · have h1 : List.Perm ([⟨["D"], [8]⟩, ⟨["B"], [5]⟩, ⟨["C"], [6, 7]⟩] ++
        [(⟨["A"], [1, 2, 3, 4]⟩ : Team ℚ)])
        ([⟨["A"], [1, 2, 3, 4]⟩] ++ [⟨["D"], [8]⟩, ⟨["B"], [5]⟩, ⟨["C"], [6, 7]⟩]) :=
      List.perm_append_comm
    have h2 : List.Perm ([(⟨["D"], [8]⟩ : Team ℚ)] ++ [⟨["B"], [5]⟩, ⟨["C"], [6, 7]⟩])
        ([⟨["B"], [5]⟩, ⟨["C"], [6, 7]⟩] ++ [⟨["D"], [8]⟩]) :=
      List.perm_append_comm
    exact h1.trans (h2.cons _)
  · simp [tieOut, valueCount, Team.getValues]

/-- C7: the comparison passed to std::sort is a strict weak ordering, so the
call has an outcome, and every outcome is a permutation of the collection before
the sort (no team lost, duplicated or changed) in which each team holds at most
as many values as the team after it. -/
theorem sort_perm_nondecreasing {T : Type} (coll : List (Team T)) :
    StrictWeakOrdering (sortComp : Team T → Team T → Bool) ∧
    (∃ out, SortStep coll out) ∧
    ∀ out, SortStep coll out →
      out.Perm coll ∧
      ∀ i (h : i + 1 < out.length),
        (out[i]).getValues.length ≤ (out[i + 1]).getValues.length := by
  refine ⟨sortComp_strictWeakOrdering, ?_, ?_⟩
  · obtain ⟨out, h, _⟩ := stable_outcome_exists coll
    exact ⟨out, h⟩
  · intro out hout
    obtain ⟨hp, hs⟩ := (sortStep_iff coll out).mp hout
    refine ⟨hp, ?_⟩
    intro i h
    exact (List.pairwise_iff_getElem.mp hs) i (i + 1) (by omega) h (by omega)

theorem sort_perm_nondecreasing_witness :
    tieOut.Perm tieColl ∧
    ∀ i (h : i + 1 < tieOut.length),
      (tieOut[i]).getValues.length ≤ (tieOut[i + 1]).getValues.length :=
  (sort_perm_nondecreasing tieColl).2.2 tieOut tieOut_sortStep

theorem tieSorted_sortStep : SortStep tieColl tieSorted := by
  rw [sortStep_iff]
  refine ⟨?_, ?_⟩
  · have h1 : List.Perm ([⟨["B"], [5]⟩, ⟨["D"], [8]⟩, ⟨["C"], [6, 7]⟩] ++
        [(⟨["A"], [1, 2, 3, 4]⟩ : Team ℚ)])
        ([⟨["A"], [1, 2, 3, 4]⟩] ++ [⟨["B"], [5]⟩, ⟨["D"], [8]⟩, ⟨["C"], [6, 7]⟩]) :=
      List.perm_append_comm
    have h2 : List.Perm [(⟨["D"], [8]⟩ : Team ℚ), ⟨["C"], [6, 7]⟩]
        [⟨["C"], [6, 7]⟩, ⟨["D"], [8]⟩] := List.Perm.swap _ _ _
    exact h1.trans ((h2.cons _).cons _)
  · simp [tieSorted, valueCount, Team.getValues]

theorem valueCount_createTeamDouble (id : Nat) : valueCount (createTeamDouble id) = 1 := rfl

theorem seventeenSorted_sortStep : SortStep seventeenTeams seventeenSorted := by
  rw [sortStep_iff]
  refine ⟨?_, ?_⟩
  · unfold seventeenTeams seventeenSorted
    apply List.Perm.map
    decide
  · unfold seventeenSorted
    rw [List.pairwise_map]
    exact List.pairwise_of_forall (fun _ _ => by simp [valueCount_createTeamDouble])

/-- C6, as stated, fails: seventeen teams made by createTeamDouble hold one value
each, and the sort returns them in the order 8, 16, 15, ..., 9, 0, 7, ..., 1 of
their creation. That arrangement is sorted by number of values, and the teams
with equal counts are not in their original relative order. -/
theorem sort_stable_counterexample :
    SortStep seventeenTeams seventeenSorted ∧
    seventeenTeams.map valueCount = List.replicate 17 1 ∧
    seventeenSorted.head? = some (createTeamDouble 8) ∧
    seventeenTeams.head? = some (createTeamDouble 0) ∧
    ¬ KeepsTieOrder valueCount seventeenTeams seventeenSorted := by
  refine ⟨seventeenSorted_sortStep, rfl, rfl, rfl, ?_⟩
  intro h
  have h1 := congrArg List.head? (h 1)
  have e1 : (seventeenSorted.filter (fun a => valueCount a == 1)).head? =
      some (createTeamDouble 8) := rfl
  have e2 : (seventeenTeams.filter (fun a => valueCount a == 1)).head? =
      some (createTeamDouble 0) := rfl
  rw [e1, e2] at h1
  have h2 := congrArg Team.names_ (Option.some.inj h1)
  revert h2
  decide

/-- C6, amended: the sort has an outcome, and every outcome has the value-counts
of the collection in ascending order and, for each count, the same teams with
that count as before the sort; their relative order is not part of what the sort
guarantees. -/
theorem sort_counts_ascending {T : Type} (coll : List (Team T)) :
    (∃ out, SortStep coll out) ∧
    ∀ out, SortStep coll out →
      out.map valueCount = (coll.map valueCount).insertionSort (fun a b => a ≤ b) ∧
      ∀ k, (out.filter (fun a => valueCount a == k)).Perm
        (coll.filter (fun a => valueCount a == k)) := by
  refine ⟨?_, ?_⟩
  · obtain ⟨out, h, _⟩ := stable_outcome_exists coll
    exact ⟨out, h⟩
  intro out hout
  obtain ⟨hp, hs⟩ := (sortStep_iff coll out).mp hout
  refine ⟨?_, fun k => hp.filter _⟩
  apply List.eq_of_perm_of_sorted (r := fun a b : Nat => a ≤ b)
  · exact (hp.map valueCount).trans (List.perm_insertionSort _ _).symm
  · exact List.pairwise_map.mpr hs
  · exact List.sorted_insertionSort _ _

theorem sort_counts_ascending_witness :
    tieColl.map valueCount = [4, 1, 2, 1] ∧
    tieSorted.map valueCount = [1, 1, 2, 4] ∧
    (tieSorted.filter (fun a => valueCount a == 1)).Perm
      (tieColl.filter (fun a => valueCount a == 1)) := by
  have h := (sort_counts_ascending tieColl).2 tieSorted tieSorted_sortStep
  exact ⟨rfl, rfl, h.2 1⟩

/-! ## Theorems: the concurrent printers -/

theorem lineChars_eq_fullLine {T : Type} (fmt : T → String) (t : Team T) :
    lineChars fmt t = fullLine fmt t := by
  unfold lineChars fullLine
  rw [write_eq_append_render, String.empty_append]

theorem linesText_append {T : Type} (fmt : T → String) (l1 l2 : List (Team T)) :
    linesText fmt (l1 ++ l2) = linesText fmt l1 ++ linesText fmt l2 := by
  induction l1 with
  | nil => rfl
  | cons t ts ih => simp [linesText, ih]

theorem guarded_symm {T : Type} (fmt : T → String) (coll : List (Team T)) (me other : Tid)
    (p q : Printer) (mutex : Option Tid) (cur : List Char)
    (h : Guarded fmt coll me other p q mutex cur) :
    Guarded fmt coll other me q p mutex cur := by
  rcases h with ⟨h1, h2, h3, h4⟩ | ⟨h1, h2, h3⟩ | ⟨h1, h2, h3⟩
  · exact Or.inl ⟨h1, h3, h2, h4⟩
  · exact Or.inr (Or.inr ⟨h1, h2, h3⟩)
  · exact Or.inr (Or.inl ⟨h1, h2, h3⟩)

theorem printAllTeamsStep_guarded {T : Type} (fmt : T → String) (coll : List (Team T))
    (me other : Tid) (hme : me ≠ Tid.processSum) (p q : Printer) (mutex : Option Tid)
    (lines : List (Team T)) (cur : List Char)
    (hperm : lines.Perm (coll.take p.done ++ coll.take q.done))
    (hG : Guarded fmt coll me other p q mutex cur) :
    ∃ lines1 cur1,
      linesText fmt lines ++ cur ++
        (((printAllTeamsStep fmt coll me p mutex).2.2.filter
          (fun w => w.1 != Tid.processSum)).map (fun w => w.2)) =
        linesText fmt lines1 ++ cur1 ∧
      lines1.Perm (coll.take (printAllTeamsStep fmt coll me p mutex).1.done ++ coll.take q.done) ∧
      Guarded fmt coll me other (printAllTeamsStep fmt coll me p mutex).1 q
        (printAllTeamsStep fmt coll me p mutex).2.1 cur1 := by
  cases p with
  | atLoop i =>
    cases hget : coll.get? i with
    | none =>
      refine ⟨lines, cur, ?_, ?_, ?_⟩ <;> simp only [printAllTeamsStep, hget]
      · simp
      · exact hperm
      · exact hG
    | some elem =>
      cases mutex with
      | none =>
        rcases hG with ⟨_, _, hq, hcur⟩ | ⟨h1, _⟩ | ⟨h1, _⟩
        · refine ⟨lines, [], ?_, ?_, ?_⟩ <;> simp only [printAllTeamsStep, hget]
          · simp [hcur]
          · exact hperm
          · exact Or.inr (Or.inl ⟨rfl, ⟨elem, hget, rfl⟩, hq⟩)
        · cases h1
        · cases h1
      | some owner =>
        refine ⟨lines, cur, ?_, ?_, ?_⟩ <;> simp only [printAllTeamsStep, hget]
        · simp
        · exact hperm
        · exact hG
  | writing i rest =>
    rcases hG with ⟨_, hp, _⟩ | ⟨hm, ⟨t, hget, hline⟩, hq⟩ | ⟨_, _, hp⟩
    · cases hp
    · cases rest with
      | nil =>
        refine ⟨lines ++ [t], [], ?_, ?_, ?_⟩ <;> simp only [printAllTeamsStep]
        · rw [linesText_append]
          simp only [List.append_nil] at hline
          simp [linesText, ← lineChars_eq_fullLine, hline]
        · simp only [Printer.done] at hperm ⊢
          have ht : coll.take (i + 1) = coll.take i ++ [t] := by
            rw [List.take_succ]
            simp only [List.get?_eq_getElem?] at hget
            simp [hget]
          rw [ht]
          refine (hperm.append_right [t]).trans ?_
          simp only [List.append_assoc]
          exact List.Perm.append_left _ List.perm_append_comm
        · exact Or.inl ⟨rfl, rfl, hq, rfl⟩
      | cons c rest1 =>
        refine ⟨lines, cur ++ [c], ?_, ?_, ?_⟩ <;> simp only [printAllTeamsStep]
        · simp [hme]
        · exact hperm
        · exact Or.inr (Or.inl ⟨hm, ⟨t, hget, by simpa using hline⟩, hq⟩)
    · cases hp

theorem printed_append (s : Sys) (p1 p2 : Printer) (m : Option Tid) (n : List Char)
    (w : List (Tid × Char)) :
    Sys.printed { print1 := p1, print2 := p2, coutMutex := m, notice := n,
                  sink := s.sink ++ w } =
      s.printed ++ (w.filter (fun w => w.1 != Tid.processSum)).map (fun w => w.2) := by
  simp [Sys.printed, List.filter_append]

theorem step_inv {T : Type} (fmt : T → String) (coll : List (Team T)) (s : Sys) (tid : Tid)
    (h : s.Inv fmt coll) : (s.step fmt coll tid).Inv fmt coll := by
  obtain ⟨lines, cur, htext, hperm, hG⟩ := h
  cases tid with
  | print1 =>
    obtain ⟨lines1, cur1, e1, e2, e3⟩ := printAllTeamsStep_guarded fmt coll .print1 .print2
      (by decide) s.print1 s.print2 s.coutMutex lines cur hperm hG
    refine ⟨lines1, cur1, ?_, e2, e3⟩
    simp only [Sys.step]
    rw [printed_append, htext]
    exact e1
  | print2 =>
    obtain ⟨lines1, cur1, e1, e2, e3⟩ := printAllTeamsStep_guarded fmt coll .print2 .print1
      (by decide) s.print2 s.print1 s.coutMutex lines cur
      (hperm.trans List.perm_append_comm) (guarded_symm _ _ _ _ _ _ _ _ hG)
    refine ⟨lines1, cur1, ?_, e2.trans List.perm_append_comm, guarded_symm _ _ _ _ _ _ _ _ e3⟩
    simp only [Sys.step]
    rw [printed_append, htext]
    exact e1
  | processSum =>
    simp only [Sys.step]
    cases hn : s.notice with
    | nil => exact ⟨lines, cur, htext, hperm, hG⟩
    | cons c rest =>
      refine ⟨lines, cur, ?_, hperm, hG⟩
      simp only []
      rw [printed_append, htext]
      simp

theorem run_inv {T : Type} (fmt : T → String) (coll : List (Team T)) (schedule : List Tid)
    (s : Sys) (h : s.Inv fmt coll) : (s.run fmt coll schedule).Inv fmt coll := by
  induction schedule generalizing s with
  | nil => exact h
  | cons tid rest ih => exact ih _ (step_inv fmt coll s tid h)

theorem init_inv {T : Type} (fmt : T → String) (coll : List (Team T)) :
    Sys.init.Inv fmt coll :=
  ⟨[], [], rfl, by simp [Sys.init, Printer.done], Or.inl ⟨rfl, rfl, rfl, rfl⟩⟩

theorem run_append {T : Type} (fmt : T → String) (coll : List (Team T))
    (sched1 sched2 : List Tid) (s : Sys) :
    s.run fmt coll (sched1 ++ sched2) = (s.run fmt coll sched1).run fmt coll sched2 := by
  induction sched1 generalizing s with
  | nil => rfl
  | cons tid rest ih => simp [Sys.run, ih]

theorem run_print1_writing {T : Type} (fmt : T → String) (coll : List (Team T))
    (rest : List Char) (i : Nat) (s : Sys) (h : s.print1 = .writing i rest) :
    (s.run fmt coll (List.replicate (rest.length + 1) .print1)).print1 = .atLoop (i + 1) ∧
    (s.run fmt coll (List.replicate (rest.length + 1) .print1)).coutMutex = none ∧
    (s.run fmt coll (List.replicate (rest.length + 1) .print1)).print2 = s.print2 := by
  induction rest generalizing s with
  | nil => simp [Sys.run, Sys.step, printAllTeamsStep, h]
  | cons c rest1 ih =>
    have h1 : (s.step fmt coll .print1).print1 = .writing i rest1 := by
      simp [Sys.step, printAllTeamsStep, h]
    have h2 : (s.step fmt coll .print1).print2 = s.print2 := by
      simp [Sys.step]
    have := ih (s.step fmt coll .print1) h1
    rw [h2] at this
    simpa [List.replicate_succ, Sys.run] using this

theorem run_print1_completes {T : Type} (fmt : T → String) (coll : List (Team T)) (k : Nat) :
    ∀ (s : Sys) (i : Nat), s.print1 = .atLoop i → s.coutMutex = none → coll.length - i = k →
      ∃ schedule, (s.run fmt coll schedule).print1.finished coll.length = true ∧
        (s.run fmt coll schedule).coutMutex = none ∧
        (s.run fmt coll schedule).print2 = s.print2 := by
  induction k with
  | zero =>
    intro s i hp hm hk
    refine ⟨[], ?_, hm, rfl⟩
    simp only [Sys.run, hp, Printer.finished, decide_eq_true_eq]
    omega
  | succ k ih =>
    intro s i hp hm hk
    have hi : i < coll.length := by omega
    have hget : coll.get? i = some (coll.get ⟨i, hi⟩) := List.get?_eq_get hi
    have h1 : (s.step fmt coll .print1).print1 = .writing i (lineChars fmt (coll.get ⟨i, hi⟩)) := by
      simp only [Sys.step, printAllTeamsStep, hp, hm, hget]
    have h2 : (s.step fmt coll .print1).print2 = s.print2 := by
      simp [Sys.step]
    obtain ⟨w1, w2, w3⟩ := run_print1_writing fmt coll _ i (s.step fmt coll .print1) h1
    obtain ⟨sched, f1, f2, f3⟩ := ih _ (i + 1) w1 w2 (by omega)
    have e : s.run fmt coll (.print1 ::
        (List.replicate ((lineChars fmt (coll.get ⟨i, hi⟩)).length + 1) .print1 ++ sched)) =
        ((s.step fmt coll .print1).run fmt coll
          (List.replicate ((lineChars fmt (coll.get ⟨i, hi⟩)).length + 1) .print1)).run
          fmt coll sched :=
      run_append fmt coll _ sched (s.step fmt coll .print1)
    refine ⟨.print1 :: (List.replicate ((lineChars fmt (coll.get ⟨i, hi⟩)).length + 1) .print1 ++ sched),
      ?_, ?_, ?_⟩
    · rw [e]
      exact f1
    · rw [e]
      exact f2
    · rw [e, f3, w3, h2]

theorem run_print2_writing {T : Type} (fmt : T → String) (coll : List (Team T))
    (rest : List Char) (i : Nat) (s : Sys) (h : s.print2 = .writing i rest) :
    (s.run fmt coll (List.replicate (rest.length + 1) .print2)).print2 = .atLoop (i + 1) ∧
    (s.run fmt coll (List.replicate (rest.length + 1) .print2)).coutMutex = none ∧
    (s.run fmt coll (List.replicate (rest.length + 1) .print2)).print1 = s.print1 := by
  induction rest generalizing s with
  | nil => simp [Sys.run, Sys.step, printAllTeamsStep, h]
  | cons c rest1 ih =>
    have h1 : (s.step fmt coll .print2).print2 = .writing i rest1 := by
      simp [Sys.step, printAllTeamsStep, h]
    have h2 : (s.step fmt coll .print2).print1 = s.print1 := by
      simp [Sys.step]
    have := ih (s.step fmt coll .print2) h1
    rw [h2] at this
    simpa [List.replicate_succ, Sys.run] using this

theorem run_print2_completes {T : Type} (fmt : T → String) (coll : List (Team T)) (k : Nat) :
    ∀ (s : Sys) (i : Nat), s.print2 = .atLoop i → s.coutMutex = none → coll.length - i = k →
      ∃ schedule, (s.run fmt coll schedule).print2.finished coll.length = true ∧
        (s.run fmt coll schedule).coutMutex = none ∧
        (s.run fmt coll schedule).print1 = s.print1 := by
  induction k with
  | zero =>
    intro s i hp hm hk
    refine ⟨[], ?_, hm, rfl⟩
    simp only [Sys.run, hp, Printer.finished, decide_eq_true_eq]
    omega
  | succ k ih =>
    intro s i hp hm hk
    have hi : i < coll.length := by omega
    have hget : coll.get? i = some (coll.get ⟨i, hi⟩) := List.get?_eq_get hi
    have h1 : (s.step fmt coll .print2).print2 = .writing i (lineChars fmt (coll.get ⟨i, hi⟩)) := by
      simp only [Sys.step, printAllTeamsStep, hp, hm, hget]
    have h2 : (s.step fmt coll .print2).print1 = s.print1 := by
      simp [Sys.step]
    obtain ⟨w1, w2, w3⟩ := run_print2_writing fmt coll _ i (s.step fmt coll .print2) h1
    obtain ⟨sched, f1, f2, f3⟩ := ih _ (i + 1) w1 w2 (by omega)
    have e : s.run fmt coll (.print2 ::
        (List.replicate ((lineChars fmt (coll.get ⟨i, hi⟩)).length + 1) .print2 ++ sched)) =
        ((s.step fmt coll .print2).run fmt coll
          (List.replicate ((lineChars fmt (coll.get ⟨i, hi⟩)).length + 1) .print2)).run
          fmt coll sched :=
      run_append fmt coll _ sched (s.step fmt coll .print2)
    refine ⟨.print2 :: (List.replicate ((lineChars fmt (coll.get ⟨i, hi⟩)).length + 1) .print2 ++ sched),
      ?_, ?_, ?_⟩
    · rw [e]
      exact f1
    · rw [e]
      exact f2
    · rw [e, f3, w3, h2]

theorem printAllTeamsStep_writer {T : Type} (fmt : T → String) (coll : List (Team T)) (me : Tid)
    (p : Printer) (mutex : Option Tid) :
    ∀ w ∈ (printAllTeamsStep fmt coll me p mutex).2.2, w.1 = me := by
  intro w hw
  cases p with
  | atLoop i =>
    cases hget : coll.get? i with
    | none =>
      simp only [printAllTeamsStep, hget] at hw
      cases hw
    | some elem =>
      cases mutex <;> simp only [printAllTeamsStep, hget] at hw <;> cases hw
  | writing i rest =>
    cases rest with
    | nil => simp [printAllTeamsStep] at hw
    | cons c rest1 =>
      simp only [printAllTeamsStep, List.mem_singleton] at hw
      rw [hw]

theorem run_sink_writers {T : Type} (fmt : T → String) (coll : List (Team T))
    (schedule : List Tid) (s : Sys) (hs : ∀ w ∈ s.sink, w.1 ≠ Tid.processSum)
    (hsched : ∀ tid ∈ schedule, tid ≠ Tid.processSum) :
    ∀ w ∈ (s.run fmt coll schedule).sink, w.1 ≠ Tid.processSum := by
  induction schedule generalizing s with
  | nil => exact hs
  | cons tid rest ih =>
    apply ih (s.step fmt coll tid) _ (fun t ht => hsched t (List.mem_cons_of_mem _ ht))
    intro w hw
    have htid := hsched tid (List.mem_cons_self _ _)
    cases tid with
    | print1 =>
      simp only [Sys.step, List.mem_append] at hw
      rcases hw with hw | hw
      · exact hs w hw
      · rw [printAllTeamsStep_writer fmt coll _ _ _ w hw]
        decide
    | print2 =>
      simp only [Sys.step, List.mem_append] at hw
      rcases hw with hw | hw
      · exact hs w hw
      · rw [printAllTeamsStep_writer fmt coll _ _ _ w hw]
        decide
    | processSum => exact absurd rfl htid

theorem printed_eq_sink (s : Sys) (hs : ∀ w ∈ s.sink, w.1 ≠ Tid.processSum) :
    s.sink.map (fun w => w.2) = s.printed := by
  unfold Sys.printed
  rw [List.filter_eq_self.mpr]
  intro w hw
  simpa using hs w hw

/-- C9: under every schedule of the two printers and the aggregator, the text
written by the printers is a sequence of complete lines, each two spaces, the
rendering of one team and a newline, followed only by the beginning of the line
of the printer that owns the mutex. The complete lines are those of the
iterations completed by the two printers; when the mutex is free nothing is
under way; once both printers have left their loops the text is made of complete
lines only, two for each team. When only the two printers run, this text is all
the sink holds. Some schedule lets both printers finish. -/
theorem printers_write_whole_lines {T : Type} (fmt : T → String) (coll : List (Team T)) :
    (∀ schedule : List Tid,
      ∃ lines cur,
        (Sys.init.run fmt coll schedule).printed = linesText fmt lines ++ cur ∧
        lines.Perm (coll.take (Sys.init.run fmt coll schedule).print1.done ++
          coll.take (Sys.init.run fmt coll schedule).print2.done) ∧
        ((Sys.init.run fmt coll schedule).coutMutex = none → cur = []) ∧
        (cur ≠ [] → ∃ t ∈ coll, ∃ rest, cur ++ rest = fullLine fmt t) ∧
        ((Sys.init.run fmt coll schedule).print1.finished coll.length = true →
          (Sys.init.run fmt coll schedule).print2.finished coll.length = true →
          cur = [] ∧ lines.Perm (coll ++ coll)) ∧
        ((∀ tid ∈ schedule, tid ≠ Tid.processSum) →
          (Sys.init.run fmt coll schedule).sink.map (fun w => w.2) =
            (Sys.init.run fmt coll schedule).printed)) ∧
    (∃ schedule : List Tid,
      (Sys.init.run fmt coll schedule).print1.finished coll.length = true ∧
      (Sys.init.run fmt coll schedule).print2.finished coll.length = true) := by
  constructor
  · intro schedule
    obtain ⟨lines, cur, htext, hperm, hG⟩ := run_inv fmt coll schedule Sys.init (init_inv fmt coll)
    have hsink : (∀ tid ∈ schedule, tid ≠ Tid.processSum) →
        (Sys.init.run fmt coll schedule).sink.map (fun w => w.2) =
          (Sys.init.run fmt coll schedule).printed := fun hsched =>
      printed_eq_sink _ (run_sink_writers fmt coll schedule Sys.init (by simp [Sys.init]) hsched)
    generalize Sys.init.run fmt coll schedule = s at htext hperm hG hsink ⊢
    have hfree : s.print1.isAtLoop = true → s.print2.isAtLoop = true → cur = [] := by
      intro a1 a2
      rcases hG with ⟨_, _, _, h⟩ | ⟨_, hw, _⟩ | ⟨_, hw, _⟩
      · exact h
      · cases hp : s.print1 with
        | atLoop i => simp [hp, Writes] at hw
        | writing i rest => simp [hp, Printer.isAtLoop] at a1
      · cases hp : s.print2 with
        | atLoop i => simp [hp, Writes] at hw
        | writing i rest => simp [hp, Printer.isAtLoop] at a2
    have hwr : ∀ p : Printer, Writes fmt coll p cur →
        ∃ t ∈ coll, ∃ rest, cur ++ rest = fullLine fmt t := by
      intro p hw
      cases p with
      | atLoop i => exact absurd hw (by simp [Writes])
      | writing i rest =>
        obtain ⟨t, hget, hline⟩ := hw
        exact ⟨t, List.get?_mem hget, rest, by rw [hline, lineChars_eq_fullLine]⟩
    refine ⟨lines, cur, htext, hperm, ?_, ?_, ?_, hsink⟩
    · intro hm
      rcases hG with ⟨_, _, _, h⟩ | ⟨h, _⟩ | ⟨h, _⟩
      · exact h
      · rw [hm] at h
        cases h
      · rw [hm] at h
        cases h
    · intro hne
      rcases hG with ⟨_, _, _, h⟩ | ⟨_, hw, _⟩ | ⟨_, hw, _⟩
      · exact absurd h hne
      · exact hwr _ hw
      · exact hwr _ hw
    · intro f1 f2
      cases hp1 : s.print1 with
      | writing i rest => simp [hp1, Printer.finished] at f1
      | atLoop i =>
        cases hp2 : s.print2 with
        | writing j rest => simp [hp2, Printer.finished] at f2
        | atLoop j =>
          simp only [hp1, hp2, Printer.finished, decide_eq_true_eq] at f1 f2
          refine ⟨hfree (by simp [hp1, Printer.isAtLoop]) (by simp [hp2, Printer.isAtLoop]), ?_⟩
          simpa [hp1, hp2, Printer.done, List.take_of_length_le f1,
            List.take_of_length_le f2] using hperm
  · obtain ⟨sched1, a1, a2, _⟩ := run_print1_completes fmt coll coll.length Sys.init 0 rfl rfl
      (by omega)
    have hp2 : (Sys.init.run fmt coll sched1).print2 = .atLoop 0 := by assumption
    obtain ⟨sched2, b1, _, b3⟩ := run_print2_completes fmt coll coll.length
      (Sys.init.run fmt coll sched1) 0 hp2 a2 (by omega)
    refine ⟨sched1 ++ sched2, ?_, ?_⟩
    · rw [run_append, b3]
      exact a1
    · rw [run_append]
      exact b1

theorem printers_write_whole_lines_witness :
    (Sys.init.run id demoColl demoSchedule).sink.map (fun w => w.2) =
      "  [ proa : ]\n  [ a : ]\ncessSum() done\n".data ∧
    (Sys.init.run id demoColl demoSchedule).printed = "  [ a : ]\n  [ a : ]\n".data ∧
    ∃ lines cur,
      (Sys.init.run id demoColl demoSchedule).printed = linesText id lines ++ cur ∧
      lines.Perm (demoColl.take (Sys.init.run id demoColl demoSchedule).print1.done ++
        demoColl.take (Sys.init.run id demoColl demoSchedule).print2.done) ∧
      ((Sys.init.run id demoColl demoSchedule).coutMutex = none → cur = []) ∧
      (cur ≠ [] → ∃ t ∈ demoColl, ∃ rest, cur ++ rest = fullLine id t) ∧
      ((Sys.init.run id demoColl demoSchedule).print1.finished demoColl.length = true →
        (Sys.init.run id demoColl demoSchedule).print2.finished demoColl.length = true →
        cur = [] ∧ lines.Perm (demoColl ++ demoColl)) ∧
      ((∀ tid ∈ demoSchedule, tid ≠ Tid.processSum) →
        (Sys.init.run id demoColl demoSchedule).sink.map (fun w => w.2) =
          (Sys.init.run id demoColl demoSchedule).printed) :=
  ⟨by rfl, by rfl, (printers_write_whole_lines id demoColl).1 demoSchedule⟩

end TeamSpec
